import Mathlib

/-!
Verification of the resilience primitives of the NO-DOWNTIME repository:
a shallow embedding in Lean 4 of the circuit breaker (`circuit_breaker.rs`),
the stampede-protected cache (`cache.rs`), the rate limiter
(`rate_limiter.rs`) and the retry mechanism (`retry.rs`), together with
theorems settling the specification's claims about them.

Modelling conventions: Rust `Instant` values become natural numbers (the
circuit breaker) or rationals (the rate limiter); elapsed time is passed to
each operation as an explicit `now` argument.  `f64` arithmetic on durations
and token counts is modelled over `ℚ`; the integer casts `as u64` / `as u32`
on non-negative values become floors.  Randomness (jitter draws) is modelled
by an explicit oracle function clamped to the range the code draws from.
-/

namespace NoDowntime

/-! ## Circuit breaker (`src/circuit_breaker.rs`) -/

/-- The three circuit states, from `enum CircuitState`. -/
inductive CircuitState where
  | Closed
  | Open
  | HalfOpen
deriving DecidableEq

/-- `struct CircuitBreakerConfig`; `timeout` is in abstract clock ticks. -/
structure CircuitBreakerConfig where
  failure_threshold : Nat
  timeout : Nat
  success_threshold : Nat
deriving DecidableEq

/-- `struct CircuitBreaker`: the mutable state guarded by the breaker's
locks/atomics, with `Instant` modelled as `Nat`. -/
structure CircuitBreaker where
  state : CircuitState
  failure_count : Nat
  success_count : Nat
  last_failure : Option Nat
  config : CircuitBreakerConfig
deriving DecidableEq

/-- `CircuitBreaker::with_config`. -/
def CircuitBreaker.with_config (config : CircuitBreakerConfig) : CircuitBreaker :=
  { state := .Closed, failure_count := 0, success_count := 0, last_failure := none, config }

/-- `CircuitBreaker::on_success` (circuit_breaker.rs:117-140). -/
def CircuitBreaker.on_success (cb : CircuitBreaker) : CircuitBreaker :=
  match cb.state with
  | .Closed => { cb with failure_count := 0 }
  | .Open => cb
  | .HalfOpen =>
      let success_count := cb.success_count + 1
      if success_count ≥ cb.config.success_threshold then
        { cb with state := .Closed, failure_count := 0, success_count := 0 }
      else
        { cb with success_count := success_count }

/-- `CircuitBreaker::on_error` (circuit_breaker.rs:143-168).  The
`fetch_add` on `failure_count` happens before the state match, so the
counter is incremented on every error regardless of state. -/
def CircuitBreaker.on_error (cb : CircuitBreaker) (now : Nat) : CircuitBreaker :=
  let failure_count := cb.failure_count + 1
  match cb.state with
  | .Closed =>
      if failure_count ≥ cb.config.failure_threshold then
        { cb with state := .Open, failure_count := failure_count, last_failure := some now }
      else
        { cb with failure_count := failure_count }
  | .Open => { cb with failure_count := failure_count }
  | .HalfOpen =>
      { cb with state := .Open, failure_count := failure_count,
                last_failure := some now, success_count := 0 }

/-- `enum CircuitBreakerError`. -/
inductive CircuitBreakerError (E : Type) where
  | Inner (e : E)
  | OpenCircuit
deriving DecidableEq

/-- Result of one `CircuitBreaker::call`: the returned value, the breaker
state afterwards, and whether the wrapped operation was invoked. -/
structure CallOutcome (E T : Type) where
  result : Except (CircuitBreakerError E) T
  breaker : CircuitBreaker
  invoked : Bool

/-- `CircuitBreaker::call` (circuit_breaker.rs:76-109).  The wrapped
operation's outcome is passed in as `op`; in the `Open` state it is not
consulted at all. -/
def CircuitBreaker.call {E T : Type} (cb : CircuitBreaker) (now : Nat)
    (op : Except E T) : CallOutcome E T :=
  match cb.state with
  | .Open => ⟨.error .OpenCircuit, cb, false⟩
  | _ =>
      match op with
      | .ok v => ⟨.ok v, cb.on_success, true⟩
      | .error e => ⟨.error (.Inner e), cb.on_error now, true⟩

/-- `CircuitBreaker::check_timeout` (circuit_breaker.rs:171-188). -/
def CircuitBreaker.check_timeout (cb : CircuitBreaker) (now : Nat) : CircuitBreaker :=
  if cb.state = .Open then
    match cb.last_failure with
    | some t =>
        if now - t ≥ cb.config.timeout then
          { cb with state := .HalfOpen, success_count := 0 }
        else cb
    | none => cb
  else cb

/-- `CircuitBreaker::force_open` (circuit_breaker.rs:191-195). -/
def CircuitBreaker.force_open (cb : CircuitBreaker) (now : Nat) : CircuitBreaker :=
  { cb with state := .Open, last_failure := some now }

/-- `CircuitBreaker::force_close` (circuit_breaker.rs:198-204). -/
def CircuitBreaker.force_close (cb : CircuitBreaker) : CircuitBreaker :=
  { cb with state := .Closed, failure_count := 0, success_count := 0, last_failure := none }

/-- `n` consecutive failing calls, the `k`-th made at time `times k`. -/
def failCalls (cb : CircuitBreaker) (times : Nat → Nat) : Nat → CircuitBreaker
  | 0 => cb
  | n + 1 =>
      ((failCalls cb times n).call (times n) (Except.error () : Except Unit Unit)).breaker

/-- `n` consecutive successful calls. -/
def okCalls (cb : CircuitBreaker) : Nat → CircuitBreaker
  | 0 => cb
  | n + 1 => ((okCalls cb n).call 0 (Except.ok () : Except Unit Unit)).breaker

/-! ## Retry mechanism (`src/retry.rs`)

Durations are modelled in milliseconds over `ℚ`; `Duration::as_millis`
truncates to whole milliseconds and the `as u64` cast truncates the
non-negative `f64` product, both modelled as floors.  The RNG behind
`thread_rng().gen_range(0..=jitter_range)` is modelled as an oracle
`draws : Nat → Nat` clamped into the drawn range. -/

/-- `struct RetryConfig`. -/
structure RetryConfig where
  max_attempts : Nat
  initial_delay : ℚ
  max_delay : ℚ
  multiplier : ℚ
  jitter : ℚ
  exponential : Bool

/-- `enum RetryError`. -/
inductive RetryError (E : Type) where
  | AllAttemptsFailed (errors : List E)
  | Cancelled
deriving DecidableEq

/-- The delay update of one failing iteration of `RetryMechanism::retry`
(retry.rs:114-128): `attempts` is the 1-based counter after the failed
attempt, `delay` the current value of the loop's mutable `delay` variable,
`draw` the RNG result for this sleep. -/
def nextDelay (cfg : RetryConfig) (attempts : Nat) (delay : ℚ) (draw : Nat) : ℚ :=
  let d1 :=
    if cfg.exponential = true ∧ attempts > 1 then
      min (cfg.initial_delay * cfg.multiplier ^ (attempts - 1)) cfg.max_delay
    else delay
  if cfg.jitter > 0 then
    let jitter_range : Nat := (⌊((⌊d1⌋.toNat : ℚ)) * cfg.jitter⌋).toNat
    if jitter_range > 0 then d1 + (min draw jitter_range : Nat) else d1
  else d1

/-- The loop of `RetryMechanism::retry` (retry.rs:91-135), with the wrapped
operation modelled as a function from the 0-based invocation index to its
outcome.  Returns the final result, the total number of invocations
performed, and the list of delays slept between attempts, in order. -/
def retryFrom {E T : Type} (cfg : RetryConfig) (op : Nat → Except E T) (draws : Nat → Nat)
    (i : Nat) (errors : List E) (delay : ℚ) : Except (RetryError E) T × Nat × List ℚ :=
  match op i with
  | .ok v => (.ok v, i + 1, [])
  | .error e =>
      if h : cfg.max_attempts ≤ i + 1 then
        (.error (.AllAttemptsFailed (errors ++ [e])), i + 1, [])
      else
        let d := nextDelay cfg (i + 1) delay (draws i)
        let rest := retryFrom cfg op draws (i + 1) (errors ++ [e]) d
        (rest.1, rest.2.1, d :: rest.2.2)
termination_by cfg.max_attempts - i
decreasing_by omega

/-- `RetryMechanism::retry` applied to a fresh attempt counter and error
list, starting from `initial_delay`. -/
def retry {E T : Type} (cfg : RetryConfig) (op : Nat → Except E T) (draws : Nat → Nat) :
    Except (RetryError E) T × Nat × List ℚ :=
  retryFrom cfg op draws 0 [] cfg.initial_delay

/-- The backoff formula as worded by the spec, for the sleep after the
`n`-th failure (1-based): the first retry uses `initial_delay` unmodified
(the exponent is 0), growth begins from the second failure. -/
def backoff_spec (cfg : RetryConfig) (n : Nat) : ℚ :=
  if n = 1 then cfg.initial_delay
  else min (cfg.initial_delay * cfg.multiplier ^ (n - 1)) cfg.max_delay

/-- The jitter amount the code adds on top of a backoff value `b`:
uniform over `0, …, ⌊⌊b⌋ * jitter⌋` when that range is non-empty. -/
def jitterAdd (cfg : RetryConfig) (b : ℚ) (draw : Nat) : ℚ :=
  if cfg.jitter > 0 then
    if ((⌊((⌊b⌋.toNat : ℚ)) * cfg.jitter⌋).toNat) > 0 then
      ((min draw ((⌊((⌊b⌋.toNat : ℚ)) * cfg.jitter⌋).toNat) : Nat) : ℚ)
    else 0
  else 0

/-! ## Rate limiter (`src/rate_limiter.rs`) -/

/-- `struct TokenBucket`. -/
structure TokenBucket where
  max_tokens : Nat
  tokens : ℚ
  tokens_per_second : ℚ
  last_update : ℚ
deriving DecidableEq

/-- `TokenBucket::new` (rate_limiter.rs:65-72): starts full. -/
def TokenBucket.new (max_tokens : Nat) (tokens_per_second : ℚ) (now : ℚ) : TokenBucket :=
  ⟨max_tokens, (max_tokens : ℚ), tokens_per_second, now⟩

/-- `TokenBucket::allow` (rate_limiter.rs:75-90): lazy refill capped at
`max_tokens`, then consume one token when at least one is available.
`Instant` subtraction saturates at zero. -/
def TokenBucket.allow (b : TokenBucket) (now : ℚ) : Bool × TokenBucket :=
  let elapsed := max (now - b.last_update) 0
  let tokens := min (b.tokens + elapsed * b.tokens_per_second) (b.max_tokens : ℚ)
  if 1 ≤ tokens then (true, { b with tokens := tokens - 1, last_update := now })
  else (false, { b with tokens := tokens, last_update := now })

/-- `struct LeakyBucket`. -/
structure LeakyBucket where
  capacity : Nat
  requests : Nat
  leak_rate : ℚ
  last_update : ℚ
deriving DecidableEq

/-- `LeakyBucket::new` (rate_limiter.rs:108-115): starts empty. -/
def LeakyBucket.new (capacity : Nat) (leak_rate : ℚ) (now : ℚ) : LeakyBucket :=
  ⟨capacity, 0, leak_rate, now⟩

/-- `LeakyBucket::allow` (rate_limiter.rs:118-134): saturating leak
(`as u32` on the non-negative product is a floor), then admit when below
capacity. -/
def LeakyBucket.allow (b : LeakyBucket) (now : ℚ) : Bool × LeakyBucket :=
  let elapsed := max (now - b.last_update) 0
  let leaked : Nat := (⌊elapsed * b.leak_rate⌋).toNat
  let requests := b.requests - leaked
  if requests < b.capacity then (true, { b with requests := requests + 1, last_update := now })
  else (false, { b with requests := requests, last_update := now })

/-- `enum RateLimitingAlgorithm`. -/
inductive RateLimitingAlgorithm where
  | tokenBucket (max_tokens : Nat) (tokens_per_second : ℚ)
  | leakyBucket (capacity : Nat) (leak_rate : ℚ)

/-- `struct RateLimiterConfig`. -/
structure RateLimiterConfig where
  algorithm : RateLimitingAlgorithm
  per_client : Bool

/-- The erased-type bucket held in the `global_bucket` slot. -/
inductive GlobalBucket where
  | token (b : TokenBucket)
  | leaky (b : LeakyBucket)

/-- `struct RateLimiter`: the per-key bucket tables (`HashMap`s become
functions to `Option`) and the lazily created global bucket slot. -/
structure RateLimiter where
  config : RateLimiterConfig
  token_buckets : String → Option TokenBucket
  leaky_buckets : String → Option LeakyBucket
  global_bucket : Option GlobalBucket

/-- `RateLimiter::with_config`. -/
def RateLimiter.with_config (config : RateLimiterConfig) : RateLimiter :=
  ⟨config, fun _ => none, fun _ => none, none⟩

/-- `RateLimiter::allow` (rate_limiter.rs:166-209): an absent `client_id`
uses the fixed key `"global"`; per-client mode looks up or lazily creates
that key's bucket and mutates only it; global mode uses the shared slot. -/
def RateLimiter.allow (rl : RateLimiter) (client_id : Option String) (now : ℚ) :
    Bool × RateLimiter :=
  let key := client_id.getD "global"
  match rl.config.algorithm with
  | .tokenBucket max_tokens tokens_per_second =>
      if rl.config.per_client then
        let bucket := (rl.token_buckets key).getD
          (TokenBucket.new max_tokens tokens_per_second now)
        let r := bucket.allow now
        (r.1, { rl with
          token_buckets := fun k => if k = key then some r.2 else rl.token_buckets k })
      else
        match rl.global_bucket.getD (.token (TokenBucket.new max_tokens tokens_per_second now)) with
        | .token b =>
            let r := b.allow now
            (r.1, { rl with global_bucket := some (.token r.2) })
        | .leaky b =>
            let r := b.allow now
            (r.1, { rl with global_bucket := some (.leaky r.2) })
  | .leakyBucket capacity leak_rate =>
      if rl.config.per_client then
        let bucket := (rl.leaky_buckets key).getD (LeakyBucket.new capacity leak_rate now)
        let r := bucket.allow now
        (r.1, { rl with
          leaky_buckets := fun k => if k = key then some r.2 else rl.leaky_buckets k })
      else
        match rl.global_bucket.getD (.leaky (LeakyBucket.new capacity leak_rate now)) with
        | .token b =>
            let r := b.allow now
            (r.1, { rl with global_bucket := some (.token r.2) })
        | .leaky b =>
            let r := b.allow now
            (r.1, { rl with global_bucket := some (.leaky r.2) })

/-- `n` successive `TokenBucket::allow` calls, the `i`-th at time `times i`. -/
def allowRun (b : TokenBucket) (times : Nat → ℚ) : Nat → TokenBucket
  | 0 => b
  | n + 1 => ((allowRun b times n).allow (times n)).2

/-- The boolean outcome of the `(n+1)`-st `TokenBucket::allow` call. -/
def allowResult (b : TokenBucket) (times : Nat → ℚ) (n : Nat) : Bool :=
  ((allowRun b times n).allow (times n)).1

/-- `n` successive `RateLimiter::allow` calls for one client key. -/
def allowCalls (rl : RateLimiter) (client_id : Option String) (times : Nat → ℚ) :
    Nat → RateLimiter
  | 0 => rl
  | n + 1 => ((allowCalls rl client_id times n).allow client_id (times n)).2

/-! ## Cache (`src/cache.rs`)

Keys and values are specialised to `Nat`.  The `HashMap` entry table is an
association list with pairwise-distinct keys whose order stands for the
map's unspecified iteration order; `Instant`s are `Nat` ticks.  The
statistics live in one `AtomicU64` word, bits 0-19 hits, 20-39 misses,
40-59 evictions (cache.rs:89). -/

/-- `struct CacheEntry`. -/
structure CacheEntry where
  value : Nat
  expiration : Nat
  created : Nat
deriving DecidableEq

/-- `struct CacheConfig`. -/
structure CacheConfig where
  max_entries : Nat
  default_ttl : Nat
  probabilistic_expiration : Bool
  expiration_probability : ℚ
deriving DecidableEq

/-- `struct Cache` (entry table, configuration, packed statistics word). -/
structure Cache where
  entries : List (Nat × CacheEntry)
  config : CacheConfig
  stats_word : Nat
deriving DecidableEq

/-- Bits 0-19 of the statistics word: `current & 0xFFFFF` (cache.rs:241). -/
def hits_of (w : Nat) : Nat := w &&& 0xFFFFF

/-- Bits 20-39: `(current >> 20) & 0xFFFFF` (cache.rs:242). -/
def misses_of (w : Nat) : Nat := (w >>> 20) &&& 0xFFFFF

/-- Bits 40-59: `(current >> 40) & 0xFFFFF` (cache.rs:243). -/
def evictions_of (w : Nat) : Nat := (w >>> 40) &&& 0xFFFFF

/-- `hits | (misses << 20) | (evictions << 40)`, the word stored back by
every counter update (cache.rs:111, 120, 134, 219). -/
def pack (h m e : Nat) : Nat := h ||| (m <<< 20) ||| (e <<< 40)

/-- The hit-counter update of `Cache::get` (cache.rs:115-120). -/
def incr_hits (w : Nat) : Nat := pack (hits_of w + 1) (misses_of w) (evictions_of w)

/-- The miss-counter update of `Cache::get` (cache.rs:107-111, 129-134). -/
def incr_misses (w : Nat) : Nat := pack (hits_of w) (misses_of w + 1) (evictions_of w)

/-- The eviction-counter update of `Cache::insert` (cache.rs:214-219). -/
def incr_evictions (w : Nat) : Nat := pack (hits_of w) (misses_of w) (evictions_of w + 1)

/-- `struct CacheStats`. -/
structure CacheStats where
  hits : Nat
  misses : Nat
  evictions : Nat
  current_entries : Nat
deriving DecidableEq

/-- `Cache::stats` (cache.rs:239-252). -/
def Cache.stats (c : Cache) : CacheStats :=
  ⟨hits_of c.stats_word, misses_of c.stats_word, evictions_of c.stats_word, c.entries.length⟩

/-- `HashMap::iter().min_by_key(|(_, entry)| entry.created)` over the
association list: the first entry with minimal `created`
(cache.rs:207-211). -/
def oldest_entry : List (Nat × CacheEntry) → Option (Nat × CacheEntry)
  | [] => none
  | p :: rest =>
      match oldest_entry rest with
      | none => some p
      | some q => if q.2.created < p.2.created then some q else some p

/-- `HashMap::insert`: replace the binding when the key is present,
otherwise add it. -/
def list_insert (l : List (Nat × CacheEntry)) (k : Nat) (e : CacheEntry) :
    List (Nat × CacheEntry) :=
  if l.any (fun p => p.1 == k) then l.map (fun p => if p.1 == k then (k, e) else p)
  else l ++ [(k, e)]

/-- `HashMap::remove`. -/
def erase_key (l : List (Nat × CacheEntry)) (k : Nat) : List (Nat × CacheEntry) :=
  l.filter (fun p => !(p.1 == k))

/-- `Cache::insert` (cache.rs:192-224): build the entry with
`expiration = now + ttl` and `created = now`; when the table holds at least
`max_entries` entries, remove the entry with the oldest `created` and
increment the packed evictions counter; then insert the new binding. -/
def Cache.insert (c : Cache) (k v ttl now : Nat) : Cache :=
  let entry : CacheEntry := ⟨v, now + ttl, now⟩
  let c' :=
    if c.config.max_entries ≤ c.entries.length then
      match oldest_entry c.entries with
      | some p =>
          { c with entries := erase_key c.entries p.1,
                   stats_word := incr_evictions c.stats_word }
      | none => c
    else c
  { c' with entries := list_insert c'.entries k entry }

/-! ## Single-flight coordination of `Cache::get_or_compute` (cache.rs:140-189)

`get_or_compute` takes three separately locked critical sections around the
in-flight table: the `load_channels` lookup (cache.rs:151-163), the
registration of a new broadcast channel (cache.rs:166-171), and — after
computing, inserting and publishing — the deregistration (cache.rs:182-186).
No lock is held between the lookup and the registration, so two callers on
different worker threads can both observe an empty slot there.  The model
below makes each locked section (and the awaited compute step) one atomic
transition of a task-indexed step function for one fixed key; the `j`-th
`compute` invocation overall returns the value `j`, so distinct invocations
are observable. -/

/-- Program points of one `get_or_compute` caller; each is one atomic
(locked or awaited) section of the source. -/
inductive TaskPc where
  | doGet
  | doCheck
  | doRegister
  | doCompute
  | doStore
  | doPublish
  | doDeregister
  | waiting
  | finished
deriving DecidableEq

/-- One caller: program counter, computed or received value, the channel
owner subscribed to (when waiting), and the value finally returned. -/
structure Task where
  pc : TaskPc
  value : Option Nat
  subscribed_to : Option Nat
  result : Option Nat
deriving DecidableEq

/-- Shared state for the one key: its cache entry, the `load_channels`
slot (`some i` when task `i`'s broadcast sender is registered), the number
of `compute` invocations so far, and the tasks. -/
structure LoadSystem where
  entry : Option Nat
  channel : Option Nat
  compute_count : Nat
  tasks : List Task
deriving DecidableEq

/-- `n` concurrent callers at the `get` step, key uncached, no channel. -/
def initLoad (n : Nat) : LoadSystem :=
  ⟨none, none, 0, List.replicate n ⟨.doGet, none, none, none⟩⟩

def setTask (s : LoadSystem) (i : Nat) (t : Task) : LoadSystem :=
  { s with tasks := s.tasks.set i t }

/-- One atomic step of task `i`, mirroring `get_or_compute`: `doGet` is the
`self.get(&key).await` hit/miss check (cache.rs:146); `doCheck` the
`load_channels` lookup, subscribing when a sender is present
(cache.rs:151-163); `doRegister` creating and inserting the broadcast
channel, replacing any present one as `HashMap::insert` does
(cache.rs:166-171); `doCompute` the `compute().await` (cache.rs:174);
`doStore` the `self.insert(..)` (cache.rs:177); `doPublish` the
`sender.send` delivering to the tasks subscribed to this task's channel
(cache.rs:180); `doDeregister` removing the channel and returning the
computed value (cache.rs:182-188). -/
def stepTask (s : LoadSystem) (i : Nat) : LoadSystem :=
  match s.tasks[i]? with
  | none => s
  | some t =>
      match t.pc with
      | .doGet =>
          match s.entry with
          | some v => setTask s i { t with pc := .finished, result := some v }
          | none => setTask s i { t with pc := .doCheck }
      | .doCheck =>
          match s.channel with
          | some owner => setTask s i { t with pc := .waiting, subscribed_to := some owner }
          | none => setTask s i { t with pc := .doRegister }
      | .doRegister => { setTask s i { t with pc := .doCompute } with channel := some i }
      | .doCompute =>
          { setTask s i { t with pc := .doStore, value := some s.compute_count } with
            compute_count := s.compute_count + 1 }
      | .doStore => { setTask s i { t with pc := .doPublish } with entry := t.value }
      | .doPublish =>
          let delivered := s.tasks.map fun u =>
            if u.pc = .waiting ∧ u.subscribed_to = some i then
              { u with pc := .finished, result := t.value }
            else u
          { s with tasks := delivered.set i { t with pc := .doDeregister } }
      | .doDeregister =>
          { setTask s i { t with pc := .finished, result := t.value } with channel := none }
      | .waiting => s
      | .finished => s

/-- Run a schedule: a list of task indices, each performing its next
atomic step in turn. -/
def runSched (s : LoadSystem) (sched : List Nat) : LoadSystem :=
  sched.foldl stepTask s

/-- The interleaving in which both tasks pass the `load_channels` lookup
before either registers: both miss in the cache and find no channel, then
task 0 registers, computes, stores, publishes and deregisters, then task 1
does the same. -/
def raceSchedule : List Nat := [0, 0, 1, 1, 0, 0, 0, 0, 0, 1, 1, 1, 1, 1]

lemma call_open {E T : Type} (cb : CircuitBreaker) (now : Nat) (op : Except E T)
    (h : cb.state = .Open) : cb.call now op = ⟨.error .OpenCircuit, cb, false⟩ := by
  unfold CircuitBreaker.call
  rw [h]

lemma failCalls_invariant (cfg : CircuitBreakerConfig) (times : Nat → Nat) (k : Nat)
    (hk : k < cfg.failure_threshold) :
    (failCalls (.with_config cfg) times k).state = .Closed ∧
    (failCalls (.with_config cfg) times k).failure_count = k ∧
    (failCalls (.with_config cfg) times k).config = cfg := by
  induction k with
  | zero => exact ⟨rfl, rfl, rfl⟩
  | succ n ih =>
      obtain ⟨h1, h2, h3⟩ := ih (Nat.lt_of_succ_lt hk)
      set cb := failCalls (.with_config cfg) times n with hcb
      have hcall : (failCalls (.with_config cfg) times (n + 1))
          = (cb.call (times n) (Except.error () : Except Unit Unit)).breaker := by
        simp only [failCalls]
      have hbr : (cb.call (times n) (Except.error () : Except Unit Unit)).breaker
          = cb.on_error (times n) := by
        unfold CircuitBreaker.call
        rw [h1]
      have hoe : cb.on_error (times n) = { cb with failure_count := n + 1 } := by
        unfold CircuitBreaker.on_error
        rw [h1]
        simp only [h2, h3]
        rw [if_neg (by omega)]
      rw [hcall, hbr, hoe]
      exact ⟨h1, rfl, h3⟩

lemma failCalls_opens (cfg : CircuitBreakerConfig) (times : Nat → Nat)
    (h : 1 ≤ cfg.failure_threshold) :
    (failCalls (.with_config cfg) times cfg.failure_threshold).state = .Open := by
  obtain ⟨t, ht⟩ : ∃ t, cfg.failure_threshold = t + 1 :=
    ⟨cfg.failure_threshold - 1, by omega⟩
  obtain ⟨h1, h2, h3⟩ := failCalls_invariant cfg times t (by omega)
  set cb := failCalls (.with_config cfg) times t with hcb
  have hcall : failCalls (.with_config cfg) times (t + 1)
      = (cb.call (times t) (Except.error () : Except Unit Unit)).breaker := by
    simp only [failCalls]
  have hbr : (cb.call (times t) (Except.error () : Except Unit Unit)).breaker
      = cb.on_error (times t) := by
    unfold CircuitBreaker.call
    rw [h1]
  have hoe : (cb.on_error (times t)).state = .Open := by
    unfold CircuitBreaker.on_error
    rw [h1]
    simp only [h2, h3]
    rw [if_pos (by omega)]
  rw [ht, hcall, hbr]
  exact hoe

lemma failCalls_stays_open (cfg : CircuitBreakerConfig) (times : Nat → Nat)
    (h : 1 ≤ cfg.failure_threshold) (j : Nat) :
    failCalls (.with_config cfg) times (cfg.failure_threshold + j) =
      failCalls (.with_config cfg) times cfg.failure_threshold := by
  induction j with
  | zero => rfl
  | succ n ih =>
      have hst : (failCalls (.with_config cfg) times (cfg.failure_threshold + n)).state = .Open := by
        rw [ih]
        exact failCalls_opens cfg times h
      have hstep : failCalls (.with_config cfg) times (cfg.failure_threshold + (n + 1)) =
          ((failCalls (.with_config cfg) times (cfg.failure_threshold + n)).call
            (times (cfg.failure_threshold + n)) (Except.error () : Except Unit Unit)).breaker := rfl
      rw [hstep, call_open _ _ _ hst, ih]

/-- Claim C2: with `failure_threshold = t ≥ 1`, starting `Closed` with zero
counters, `t - 1` consecutive failed calls leave the breaker `Closed`, the
`t`-th failed call transitions it to `Open`, and every subsequent call
(before any `check_timeout`) returns `OpenCircuit` without invoking the
wrapped operation. -/
theorem circuit_breaker_trip_claim (cfg : CircuitBreakerConfig) (times : Nat → Nat)
    (h : 1 ≤ cfg.failure_threshold) :
    (∀ k, k < cfg.failure_threshold →
      (failCalls (.with_config cfg) times k).state = .Closed) ∧
    (failCalls (.with_config cfg) times cfg.failure_threshold).state = .Open ∧
    (∀ (j now : Nat) (E T : Type) (op : Except E T),
      ((failCalls (.with_config cfg) times (cfg.failure_threshold + j)).call now op).result
          = .error .OpenCircuit ∧
      ((failCalls (.with_config cfg) times (cfg.failure_threshold + j)).call now op).invoked
          = false) := by
  refine ⟨fun k hk => (failCalls_invariant cfg times k hk).1, failCalls_opens cfg times h, ?_⟩
  intro j now E T op
  have hst : (failCalls (.with_config cfg) times (cfg.failure_threshold + j)).state = .Open := by
    rw [failCalls_stays_open cfg times h j]
    exact failCalls_opens cfg times h
  rw [call_open _ _ _ hst]
  exact ⟨rfl, rfl⟩

/-- Witness for C2 at `failure_threshold = 2`. -/
theorem circuit_breaker_trip_claim_witness :
    (failCalls (.with_config ⟨2, 5, 1⟩) (fun _ => 0) 2).state = .Open :=
  (circuit_breaker_trip_claim ⟨2, 5, 1⟩ (fun _ => 0) (by decide)).2.1

lemma okCalls_halfOpen_invariant (cb : CircuitBreaker) (k : Nat)
    (hs : cb.state = .HalfOpen) (h0 : cb.success_count = 0)
    (hk : k < cb.config.success_threshold) :
    (okCalls cb k).state = .HalfOpen ∧ (okCalls cb k).success_count = k ∧
    (okCalls cb k).config = cb.config := by
  induction k with
  | zero => exact ⟨hs, h0, rfl⟩
  | succ n ih =>
      obtain ⟨h1, h2, h3⟩ := ih (Nat.lt_of_succ_lt hk)
      have hstep : okCalls cb (n + 1)
          = ((okCalls cb n).call 0 (Except.ok () : Except Unit Unit)).breaker := rfl
      have hbr : ((okCalls cb n).call 0 (Except.ok () : Except Unit Unit)).breaker
          = (okCalls cb n).on_success := by
        unfold CircuitBreaker.call
        rw [h1]
      have hos : (okCalls cb n).on_success = { okCalls cb n with success_count := n + 1 } := by
        unfold CircuitBreaker.on_success
        rw [h1]
        simp only [h2, h3]
        rw [if_neg (by omega), h1]
      rw [hstep, hbr, hos]
      exact ⟨h1, rfl, h3⟩

lemma okCalls_closes (cb : CircuitBreaker)
    (hs : cb.state = .HalfOpen) (h0 : cb.success_count = 0)
    (hst : 1 ≤ cb.config.success_threshold) :
    (okCalls cb cb.config.success_threshold).state = .Closed := by
  obtain ⟨t, ht⟩ : ∃ t, cb.config.success_threshold = t + 1 :=
    ⟨cb.config.success_threshold - 1, by omega⟩
  obtain ⟨h1, h2, h3⟩ := okCalls_halfOpen_invariant cb t hs h0 (by omega)
  have hstep : okCalls cb (t + 1)
      = ((okCalls cb t).call 0 (Except.ok () : Except Unit Unit)).breaker := rfl
  have hbr : ((okCalls cb t).call 0 (Except.ok () : Except Unit Unit)).breaker
      = (okCalls cb t).on_success := by
    unfold CircuitBreaker.call
    rw [h1]
  have hos : ((okCalls cb t).on_success).state = .Closed := by
    unfold CircuitBreaker.on_success
    rw [h1]
    simp only [h2, h3]
    rw [if_pos (by omega)]
  rw [ht, hstep, hbr]
  exact hos

lemma halfOpen_error_opens (cb : CircuitBreaker) (now : Nat) (h : cb.state = .HalfOpen) :
    (cb.call now (Except.error () : Except Unit Unit)).breaker
      = { cb with state := .Open, failure_count := cb.failure_count + 1,
                  last_failure := some now, success_count := 0 } := by
  have hbr : (cb.call now (Except.error () : Except Unit Unit)).breaker = cb.on_error now := by
    unfold CircuitBreaker.call
    rw [h]
  rw [hbr]
  unfold CircuitBreaker.on_error
  rw [h]

/-- Claim C3: from `Open`, once the elapsed time since `last_failure` is at
least `timeout`, `check_timeout` moves the breaker to `HalfOpen`; from there
`success_threshold ≥ 1` consecutive successful calls move it to `Closed`
(remaining `HalfOpen` strictly before the threshold), and a single failing
call in `HalfOpen` moves it back to `Open`.  The degenerate configuration
`success_threshold = 0` is excluded: with it no call occurs, so no
transition fires and the breaker stays `HalfOpen`. -/
theorem circuit_breaker_recovery_claim (cb : CircuitBreaker) (now tf : Nat)
    (hs : cb.state = .Open) (hl : cb.last_failure = some tf)
    (ht : cb.config.timeout ≤ now - tf) (hsc : 1 ≤ cb.config.success_threshold) :
    (cb.check_timeout now).state = .HalfOpen ∧
    (∀ k, k < cb.config.success_threshold →
      (okCalls (cb.check_timeout now) k).state = .HalfOpen) ∧
    (okCalls (cb.check_timeout now) cb.config.success_threshold).state = .Closed ∧
    (∀ (cb' : CircuitBreaker) (now' : Nat), cb'.state = .HalfOpen →
      ((cb'.call now' (Except.error () : Except Unit Unit)).breaker).state = .Open) := by
  have hct : cb.check_timeout now = { cb with state := .HalfOpen, success_count := 0 } := by
    unfold CircuitBreaker.check_timeout
    rw [if_pos hs, hl]
    exact if_pos ht
  have hcfg : (cb.check_timeout now).config = cb.config := by rw [hct]
  refine ⟨by rw [hct], ?_, ?_, ?_⟩
  · intro k hk
    exact (okCalls_halfOpen_invariant (cb.check_timeout now) k (by rw [hct]) (by rw [hct])
      (by rw [hcfg]; exact hk)).1
  · have := okCalls_closes (cb.check_timeout now) (by rw [hct]) (by rw [hct])
      (by rw [hcfg]; exact hsc)
    rw [hcfg] at this
    exact this
  · intro cb' now' h
    rw [halfOpen_error_opens cb' now' h]

/-- Witness for C3: `success_threshold = 2`, starting `Open` with the
timeout already elapsed. -/
theorem circuit_breaker_recovery_claim_witness :
    (okCalls ((⟨.Open, 1, 0, some 0, ⟨1, 5, 2⟩⟩ : CircuitBreaker).check_timeout 5) 2).state
      = .Closed :=
  (circuit_breaker_recovery_claim ⟨.Open, 1, 0, some 0, ⟨1, 5, 2⟩⟩ 5 0 rfl rfl (by decide)
    (by decide)).2.2.1

/-- Counterexample to claim C4: transitions into `Open` do not reset the
counters.  With `failure_threshold = 1`, the first failing call transitions
`Closed → Open` leaving `failure_count = 1`, and `force_open` leaves both
counters untouched. -/
theorem counter_reset_counterexample :
    (((CircuitBreaker.with_config ⟨1, 5, 1⟩).call 0
        (Except.error () : Except Unit Unit)).breaker.state = CircuitState.Open ∧
     ((CircuitBreaker.with_config ⟨1, 5, 1⟩).call 0
        (Except.error () : Except Unit Unit)).breaker.failure_count ≠ 0) ∧
    (((⟨.HalfOpen, 3, 2, some 0, ⟨5, 5, 9⟩⟩ : CircuitBreaker).force_open 7).state
        = CircuitState.Open ∧
     ((⟨.HalfOpen, 3, 2, some 0, ⟨5, 5, 9⟩⟩ : CircuitBreaker).force_open 7).failure_count ≠ 0 ∧
     ((⟨.HalfOpen, 3, 2, some 0, ⟨5, 5, 9⟩⟩ : CircuitBreaker).force_open 7).success_count ≠ 0) := by
  decide

/-- Claim C4 as amended: both counters are reset to 0 on every transition
into `Closed` (the success-threshold transition from `HalfOpen`, and
`force_close`); transitions into `Open` never reset `failure_count` (which
retains its just-incremented value on the call-driven transitions), the
`HalfOpen → Open` failure transition resets only `success_count`, and
`force_open` resets neither counter. -/
theorem counter_reset_amended (cb : CircuitBreaker) (now : Nat) :
    (cb.state = .HalfOpen → cb.config.success_threshold ≤ cb.success_count + 1 →
      ((cb.call now (Except.ok () : Except Unit Unit)).breaker.state = .Closed ∧
       (cb.call now (Except.ok () : Except Unit Unit)).breaker.failure_count = 0 ∧
       (cb.call now (Except.ok () : Except Unit Unit)).breaker.success_count = 0)) ∧
    (cb.force_close.state = .Closed ∧ cb.force_close.failure_count = 0 ∧
      cb.force_close.success_count = 0) ∧
    (cb.state = .HalfOpen →
      ((cb.call now (Except.error () : Except Unit Unit)).breaker.state = .Open ∧
       (cb.call now (Except.error () : Except Unit Unit)).breaker.success_count = 0 ∧
       (cb.call now (Except.error () : Except Unit Unit)).breaker.failure_count
          = cb.failure_count + 1)) ∧
    ((cb.force_open now).state = .Open ∧
     (cb.force_open now).failure_count = cb.failure_count ∧
     (cb.force_open now).success_count = cb.success_count) ∧
    (cb.state = .Closed → cb.config.failure_threshold ≤ cb.failure_count + 1 →
      ((cb.call now (Except.error () : Except Unit Unit)).breaker.state = .Open ∧
       (cb.call now (Except.error () : Except Unit Unit)).breaker.failure_count
          = cb.failure_count + 1)) := by
  refine ⟨?_, ⟨rfl, rfl, rfl⟩, ?_, ⟨rfl, rfl, rfl⟩, ?_⟩
  · intro h hth
    have hbr : (cb.call now (Except.ok () : Except Unit Unit)).breaker = cb.on_success := by
      unfold CircuitBreaker.call
      rw [h]
    have hos : cb.on_success
        = { cb with state := .Closed, failure_count := 0, success_count := 0 } := by
      unfold CircuitBreaker.on_success
      rw [h, if_pos hth]
    rw [hbr, hos]
    exact ⟨rfl, rfl, rfl⟩
  · intro h
    rw [halfOpen_error_opens cb now h]
    exact ⟨rfl, rfl, rfl⟩
  · intro h hth
    have hbr : (cb.call now (Except.error () : Except Unit Unit)).breaker = cb.on_error now := by
      unfold CircuitBreaker.call
      rw [h]
    have hoe : cb.on_error now
        = { cb with state := .Open, failure_count := cb.failure_count + 1,
                    last_failure := some now } := by
      unfold CircuitBreaker.on_error
      rw [h]
      exact if_pos hth
    rw [hbr, hoe]
    exact ⟨rfl, rfl⟩

/-- Witness for the amended C4 at a concrete `HalfOpen` breaker. -/
theorem counter_reset_amended_witness :
    ((⟨.HalfOpen, 3, 0, some 0, ⟨1, 5, 1⟩⟩ : CircuitBreaker).call 7
        (Except.ok () : Except Unit Unit)).breaker.failure_count = 0 ∧
    ((⟨.HalfOpen, 3, 0, some 0, ⟨1, 5, 1⟩⟩ : CircuitBreaker).call 7
        (Except.error () : Except Unit Unit)).breaker.success_count = 0 := by
  have h := counter_reset_amended ⟨.HalfOpen, 3, 0, some 0, ⟨1, 5, 1⟩⟩ 7
  exact ⟨(h.1 rfl (by decide)).2.1, (h.2.2.1 rfl).2.1⟩

lemma retryFrom_success {E T : Type} (cfg : RetryConfig) (op : Nat → Except E T)
    (draws : Nat → Nat) (v : T) (k : Nat) :
    ∀ (i : Nat) (errors : List E) (delay : ℚ),
      (∀ j, j < k → ∃ e, op (i + j) = .error e) → op (i + k) = .ok v →
      i + k < cfg.max_attempts →
      (retryFrom cfg op draws i errors delay).1 = .ok v ∧
      (retryFrom cfg op draws i errors delay).2.1 = i + k + 1 := by
  induction k with
  | zero =>
      intro i errors delay hf hs hlt
      rw [Nat.add_zero] at hs
      rw [retryFrom, hs]
      simp
  | succ n ih =>
      intro i errors delay hf hs hlt
      obtain ⟨e, he⟩ := hf 0 (by omega)
      rw [Nat.add_zero] at he
      have hs' : op (i + 1 + n) = .ok v := by
        rw [show i + 1 + n = i + (n + 1) by omega]
        exact hs
      have hf' : ∀ j, j < n → ∃ e, op (i + 1 + j) = .error e := by
        intro j hj
        rw [show i + 1 + j = i + (j + 1) by omega]
        exact hf (j + 1) (by omega)
      have := ih (i + 1) (errors ++ [e]) (nextDelay cfg (i + 1) delay (draws i)) hf' hs'
        (by omega)
      rw [retryFrom, he]
      simp only
      rw [dif_neg (by omega)]
      simp only
      exact ⟨this.1, by rw [this.2]; omega⟩

lemma retryFrom_allFail {E T : Type} (cfg : RetryConfig) (op : Nat → Except E T)
    (draws : Nat → Nat) (es : Nat → E) (hop : ∀ j, op j = .error (es j)) (fuel : Nat) :
    ∀ (i : Nat) (errors : List E) (delay : ℚ), cfg.max_attempts - i = fuel + 1 →
      (retryFrom cfg op draws i errors delay).1 = .error (.AllAttemptsFailed
        (errors ++ (List.range (cfg.max_attempts - i)).map (fun j => es (i + j)))) ∧
      (retryFrom cfg op draws i errors delay).2.1 = cfg.max_attempts := by
  induction fuel with
  | zero =>
      intro i errors delay hfuel
      rw [retryFrom, hop i]
      simp only
      rw [dif_pos (by omega)]
      refine ⟨?_, by simp only; omega⟩
      rw [hfuel]
      simp [List.range_succ]
  | succ n ih =>
      intro i errors delay hfuel
      have := ih (i + 1) (errors ++ [es i]) (nextDelay cfg (i + 1) delay (draws i)) (by omega)
      rw [retryFrom, hop i]
      simp only
      rw [dif_neg (by omega)]
      simp only
      refine ⟨?_, this.2⟩
      rw [this.1]
      have hr : cfg.max_attempts - i = (cfg.max_attempts - (i + 1)) + 1 := by omega
      rw [hr, List.range_succ_eq_map, List.map_cons, List.map_map]
      have hfun : (fun j => es (i + 1 + j)) = ((fun j => es (i + j)) ∘ Nat.succ) := by
        funext j
        show es (i + 1 + j) = es (i + (j + 1))
        rw [show i + 1 + j = i + (j + 1) by omega]
      rw [hfun]
      simp [Nat.add_zero, List.append_assoc]

/-- Claim C6: if the operation fails on exactly its first `k` invocations
with `k < max_attempts` and then succeeds, `retry` returns that success
after exactly `k + 1` invocations; if the operation always fails and
`max_attempts ≥ 1`, `retry` returns `AllAttemptsFailed` with exactly
`max_attempts` errors, one per attempt, in attempt order.  (The degenerate
`max_attempts = 0` is excluded: the loop body runs before the attempt-count
check, so one invocation still happens and one error is recorded.) -/
theorem retry_count_claim {E T : Type} (cfg : RetryConfig) (op : Nat → Except E T)
    (draws : Nat → Nat) :
    (∀ (k : Nat) (v : T), (∀ j, j < k → ∃ e, op j = .error e) → op k = .ok v →
      k < cfg.max_attempts →
      (retry cfg op draws).1 = .ok v ∧ (retry cfg op draws).2.1 = k + 1) ∧
    (∀ (es : Nat → E), (∀ j, op j = .error (es j)) → 1 ≤ cfg.max_attempts →
      (retry cfg op draws).1
        = .error (.AllAttemptsFailed ((List.range cfg.max_attempts).map es)) ∧
      (retry cfg op draws).2.1 = cfg.max_attempts) := by
  constructor
  · intro k v hf hs hlt
    have := retryFrom_success cfg op draws v k 0 [] cfg.initial_delay
      (by intro j hj; simpa using hf j hj) (by simpa using hs) (by omega)
    unfold retry
    exact ⟨this.1, by rw [this.2]; omega⟩
  · intro es hop hm
    have := retryFrom_allFail cfg op draws es hop (cfg.max_attempts - 1) 0 [] cfg.initial_delay
      (by omega)
    unfold retry
    refine ⟨?_, this.2⟩
    rw [this.1]
    simp only [Nat.sub_zero, List.nil_append, Nat.zero_add]

/-- Witness for C6: three attempts; an operation failing once then
succeeding, and an operation that always fails. -/
theorem retry_count_claim_witness :
    ((retry ⟨3, 100, 10000, 2, 0, true⟩ (fun j => if j = 0 then .error 7 else .ok 42)
        (fun _ => 0)).1 = .ok 42 ∧
     (retry ⟨3, 100, 10000, 2, 0, true⟩ (fun j => if j = 0 then .error 7 else .ok 42)
        (fun _ => 0)).2.1 = 2) ∧
    ((retry ⟨3, 100, 10000, 2, 0, true⟩ (fun _ => (.error 7 : Except Nat Nat))
        (fun _ => 0)).1
      = .error (.AllAttemptsFailed ((List.range 3).map (fun _ => 7))) ∧
     (retry ⟨3, 100, 10000, 2, 0, true⟩ (fun _ => (.error 7 : Except Nat Nat))
        (fun _ => 0)).2.1 = 3) := by
  constructor
  · exact (retry_count_claim ⟨3, 100, 10000, 2, 0, true⟩
      (fun j => if j = 0 then .error 7 else .ok 42) (fun _ => 0)).1 1 42
      (fun j hj => ⟨7, by rw [Nat.lt_one_iff.mp hj]; rfl⟩) rfl (by decide)
  · exact (retry_count_claim ⟨3, 100, 10000, 2, 0, true⟩
      (fun _ => (.error 7 : Except Nat Nat)) (fun _ => 0)).2 (fun _ => 7)
      (fun _ => rfl) (by decide)

lemma nextDelay_overwrite (cfg : RetryConfig) (hexp : cfg.exponential = true)
    (attempts : Nat) (h2 : 2 ≤ attempts) (d d' : ℚ) (draw : Nat) :
    nextDelay cfg attempts d draw = nextDelay cfg attempts d' draw := by
  simp only [nextDelay]
  rw [if_pos (⟨hexp, by omega⟩ : cfg.exponential = true ∧ attempts > 1),
      if_pos (⟨hexp, by omega⟩ : cfg.exponential = true ∧ attempts > 1)]

lemma nextDelay_eq_backoff (cfg : RetryConfig) (hexp : cfg.exponential = true)
    (n : Nat) (hn : 1 ≤ n) (draw : Nat) :
    nextDelay cfg n cfg.initial_delay draw
      = backoff_spec cfg n + jitterAdd cfg (backoff_spec cfg n) draw := by
  have hb : (if cfg.exponential = true ∧ n > 1 then
      min (cfg.initial_delay * cfg.multiplier ^ (n - 1)) cfg.max_delay
    else cfg.initial_delay) = backoff_spec cfg n := by
    unfold backoff_spec
    rcases Nat.eq_or_lt_of_le hn with h1 | h1
    · rw [if_neg (by omega), if_pos (by omega)]
    · rw [if_pos ⟨hexp, by omega⟩, if_neg (by omega)]
  simp only [nextDelay, jitterAdd, hb]
  by_cases hj : cfg.jitter > 0
  · rw [if_pos hj, if_pos hj]
    by_cases hr : ((⌊((⌊backoff_spec cfg n⌋.toNat : ℚ)) * cfg.jitter⌋).toNat) > 0
    · rw [if_pos hr, if_pos hr]
    · rw [if_neg hr, if_neg hr, add_zero]
  · rw [if_neg hj, if_neg hj, add_zero]

lemma jitterAdd_nonneg (cfg : RetryConfig) (b : ℚ) (draw : Nat) :
    0 ≤ jitterAdd cfg b draw := by
  unfold jitterAdd
  by_cases hj : cfg.jitter > 0
  · rw [if_pos hj]
    by_cases hr : ((⌊((⌊b⌋.toNat : ℚ)) * cfg.jitter⌋).toNat) > 0
    · rw [if_pos hr]
      positivity
    · rw [if_neg hr]
  · rw [if_neg hj]

lemma jitterAdd_le (cfg : RetryConfig) (b : ℚ) (draw : Nat)
    (hb : 0 ≤ b) (hj : 0 ≤ cfg.jitter) :
    jitterAdd cfg b draw ≤ b * cfg.jitter := by
  have hbj : 0 ≤ b * cfg.jitter := mul_nonneg hb hj
  unfold jitterAdd
  by_cases hjp : cfg.jitter > 0
  · rw [if_pos hjp]
    set m : Nat := ⌊b⌋.toNat with hm
    set x : ℚ := (m : ℚ) * cfg.jitter with hx
    have hx0 : 0 ≤ x := mul_nonneg (by positivity) hj
    have hmb : (m : ℚ) ≤ b := by
      rw [hm]
      have h0 := Int.toNat_of_nonneg (Int.floor_nonneg.mpr hb)
      calc ((⌊b⌋.toNat : ℕ) : ℚ) = ((⌊b⌋.toNat : ℤ) : ℚ) := by norm_cast
        _ = ((⌊b⌋ : ℤ) : ℚ) := by rw [h0]
        _ ≤ b := Int.floor_le b
    have hxle : x ≤ b * cfg.jitter := mul_le_mul_of_nonneg_right hmb hj
    by_cases hr : (⌊x⌋.toNat > 0)
    · rw [if_pos hr]
      have hfl : (0 : ℤ) ≤ ⌊x⌋ := Int.floor_nonneg.mpr hx0
      have h2 : ((⌊x⌋.toNat : ℕ) : ℚ) = ((⌊x⌋ : ℤ) : ℚ) := by
        have h0 := Int.toNat_of_nonneg hfl
        calc ((⌊x⌋.toNat : ℕ) : ℚ) = ((⌊x⌋.toNat : ℤ) : ℚ) := by norm_cast
          _ = ((⌊x⌋ : ℤ) : ℚ) := by rw [h0]
      calc ((min draw ⌊x⌋.toNat : Nat) : ℚ) ≤ ((⌊x⌋.toNat : ℕ) : ℚ) := by
            exact_mod_cast Nat.cast_le.mpr (Nat.min_le_right _ _)
        _ = ((⌊x⌋ : ℤ) : ℚ) := h2
        _ ≤ x := Int.floor_le x
        _ ≤ b * cfg.jitter := hxle
    · rw [if_neg hr]
      exact hbj
  · rw [if_neg hjp]
    exact hbj

lemma backoff_spec_nonneg (cfg : RetryConfig) (n : Nat) (hid : 0 ≤ cfg.initial_delay)
    (hmd : 0 ≤ cfg.max_delay) (hmu : 0 ≤ cfg.multiplier) : 0 ≤ backoff_spec cfg n := by
  unfold backoff_spec
  by_cases h : n = 1
  · rw [if_pos h]
    exact hid
  · rw [if_neg h]
    exact le_min (mul_nonneg hid (pow_nonneg hmu _)) hmd

lemma retryFrom_slept {E T : Type} (cfg : RetryConfig) (op : Nat → Except E T)
    (draws : Nat → Nat) (hexp : cfg.exponential = true) (r : Nat) :
    ∀ (i : Nat) (errors : List E) (delay : ℚ),
      (∀ j, j ≤ i + r → ∃ e, op j = .error e) → i + r + 1 < cfg.max_attempts →
      (retryFrom cfg op draws i errors delay).2.2.get? r
        = some (nextDelay cfg (i + r + 1) delay (draws (i + r))) := by
  induction r with
  | zero =>
      intro i errors delay hf hlt
      obtain ⟨e, he⟩ := hf i (by omega)
      rw [retryFrom, he]
      simp only
      rw [dif_neg (by omega)]
      simp only
      rfl
  | succ n ih =>
      intro i errors delay hf hlt
      obtain ⟨e, he⟩ := hf i (by omega)
      rw [retryFrom, he]
      simp only
      rw [dif_neg (by omega)]
      simp only
      rw [List.get?_cons_succ]
      have hf' : ∀ j, j ≤ (i + 1) + n → ∃ e, op j = .error e := fun j hj => hf j (by omega)
      have hrec := ih (i + 1) (errors ++ [e]) (nextDelay cfg (i + 1) delay (draws i)) hf'
        (by omega)
      rw [hrec]
      rw [show i + 1 + n + 1 = i + (n + 1) + 1 by omega, show i + 1 + n = i + (n + 1) by omega]
      exact congrArg some (nextDelay_overwrite cfg hexp (i + (n + 1) + 1) (by omega) _ delay
        (draws (i + (n + 1))))

/-- Claim C7: with exponential backoff enabled and all configuration values
non-negative, the delay slept after the `n`-th consecutive failure is
`backoff_spec cfg n` (which is `initial_delay` unmodified for `n = 1` and
`min(initial_delay * multiplier^(n-1), max_delay)` for `n ≥ 2`) plus a
jitter drawn from `[0, backoff * jitter]` computed fresh from the current
backoff; the jitter is only ever added, never subtracted. -/
theorem retry_backoff_claim (cfg : RetryConfig) {E T : Type} (op : Nat → Except E T)
    (draws : Nat → Nat) (n : Nat) (hexp : cfg.exponential = true)
    (hid : 0 ≤ cfg.initial_delay) (hmd : 0 ≤ cfg.max_delay) (hmu : 0 ≤ cfg.multiplier)
    (hj : 0 ≤ cfg.jitter) (hn : 1 ≤ n) (hfail : ∀ j, j < n → ∃ e, op j = .error e)
    (hmax : n < cfg.max_attempts) :
    (∃ jit : ℚ, 0 ≤ jit ∧ jit ≤ backoff_spec cfg n * cfg.jitter ∧
      (retry cfg op draws).2.2.get? (n - 1) = some (backoff_spec cfg n + jit) ∧
      backoff_spec cfg n ≤ backoff_spec cfg n + jit) ∧
    backoff_spec cfg 1 = cfg.initial_delay ∧
    (2 ≤ n → backoff_spec cfg n
      = min (cfg.initial_delay * cfg.multiplier ^ (n - 1)) cfg.max_delay) := by
  have hslept := retryFrom_slept cfg op draws hexp (n - 1) 0 [] cfg.initial_delay
    (fun j hjle => hfail j (by omega)) (by omega)
  rw [show 0 + (n - 1) + 1 = n by omega, show 0 + (n - 1) = n - 1 by omega] at hslept
  refine ⟨⟨jitterAdd cfg (backoff_spec cfg n) (draws (n - 1)), jitterAdd_nonneg _ _ _,
      jitterAdd_le cfg _ _ (backoff_spec_nonneg cfg n hid hmd hmu) hj, ?_, ?_⟩, ?_, ?_⟩
  · unfold retry
    rw [hslept]
    exact congrArg some (nextDelay_eq_backoff cfg hexp n hn (draws (n - 1)))
  · exact le_add_of_nonneg_right (jitterAdd_nonneg _ _ _)
  · unfold backoff_spec
    rw [if_pos rfl]
  · intro h2
    unfold backoff_spec
    rw [if_neg (by omega)]

/-- Witness for C7 at `n = 2`, jitter fraction `1/2`, draw 7. -/
theorem retry_backoff_claim_witness :
    (∃ jit : ℚ, 0 ≤ jit ∧
        jit ≤ backoff_spec ⟨5, 100, 10000, 2, 1/2, true⟩ 2 * (1/2 : ℚ) ∧
        (retry ⟨5, 100, 10000, 2, 1/2, true⟩ (fun _ => (.error 0 : Except Nat Nat))
            (fun _ => 7)).2.2.get? 1
          = some (backoff_spec ⟨5, 100, 10000, 2, 1/2, true⟩ 2 + jit) ∧
        backoff_spec ⟨5, 100, 10000, 2, 1/2, true⟩ 2
          ≤ backoff_spec ⟨5, 100, 10000, 2, 1/2, true⟩ 2 + jit) ∧
    backoff_spec ⟨5, 100, 10000, 2, 1/2, true⟩ 1 = 100 ∧
    (2 ≤ 2 → backoff_spec ⟨5, 100, 10000, 2, 1/2, true⟩ 2
      = min ((100 : ℚ) * 2 ^ (2 - 1)) 10000) :=
  retry_backoff_claim ⟨5, 100, 10000, 2, 1/2, true⟩ (fun _ => (.error 0 : Except Nat Nat))
    (fun _ => 7) 2 rfl (by norm_num) (by norm_num) (by norm_num) (by norm_num) (by norm_num)
    (fun j hj => ⟨0, rfl⟩) (by norm_num)

lemma allow_zero_rate (b : TokenBucket) (now : ℚ) (h3 : b.tokens_per_second = 0)
    (hle : b.tokens ≤ (b.max_tokens : ℚ)) :
    b.allow now = if 1 ≤ b.tokens then
        (true, { b with tokens := b.tokens - 1, last_update := now })
      else (false, { b with tokens := b.tokens, last_update := now }) := by
  simp only [TokenBucket.allow, h3, mul_zero, add_zero]
  rw [min_eq_left hle]

lemma allowRun_zero_rate (N : Nat) (times : Nat → ℚ) (t0 : ℚ) (n : Nat) (hn : n ≤ N) :
    (allowRun (TokenBucket.new N 0 t0) times n).tokens = (N : ℚ) - n ∧
    (allowRun (TokenBucket.new N 0 t0) times n).max_tokens = N ∧
    (allowRun (TokenBucket.new N 0 t0) times n).tokens_per_second = 0 := by
  induction n with
  | zero => exact ⟨by simp [allowRun, TokenBucket.new], rfl, rfl⟩
  | succ m ih =>
      obtain ⟨h1, h2, h3⟩ := ih (by omega)
      have hmN : (m : ℚ) + 1 ≤ (N : ℚ) := by exact_mod_cast Nat.succ_le_of_lt (by omega)
      have hstep : allowRun (TokenBucket.new N 0 t0) times (m + 1)
          = ((allowRun (TokenBucket.new N 0 t0) times m).allow (times m)).2 := rfl
      have hle : (allowRun (TokenBucket.new N 0 t0) times m).tokens
          ≤ ((allowRun (TokenBucket.new N 0 t0) times m).max_tokens : ℚ) := by
        rw [h1, h2]
        have : (0 : ℚ) ≤ (m : ℚ) := by positivity
        linarith
      rw [hstep, allow_zero_rate _ _ h3 hle, if_pos (by rw [h1]; linarith)]
      refine ⟨?_, h2, h3⟩
      simp only [h1]
      push_cast
      ring

/-- Claim C8: a token bucket with `max_tokens = N ≥ 1` and zero refill rate
admits exactly the first `N` calls and rejects the `(N+1)`-st, whatever the
elapsed times between calls. -/
theorem token_bucket_exhaustion_claim (N : Nat) (hN : 1 ≤ N) (times : Nat → ℚ) (t0 : ℚ) :
    (∀ i, i < N → allowResult (TokenBucket.new N 0 t0) times i = true) ∧
    allowResult (TokenBucket.new N 0 t0) times N = false := by
  constructor
  · intro i hi
    obtain ⟨h1, h2, h3⟩ := allowRun_zero_rate N times t0 i (by omega)
    have hiQ : (i : ℚ) + 1 ≤ (N : ℚ) := by exact_mod_cast Nat.succ_le_of_lt hi
    have hle : (allowRun (TokenBucket.new N 0 t0) times i).tokens
        ≤ ((allowRun (TokenBucket.new N 0 t0) times i).max_tokens : ℚ) := by
      rw [h1, h2]
      have : (0 : ℚ) ≤ (i : ℚ) := by positivity
      linarith
    unfold allowResult
    rw [allow_zero_rate _ _ h3 hle, if_pos (by rw [h1]; linarith)]
  · obtain ⟨h1, h2, h3⟩ := allowRun_zero_rate N times t0 N (by omega)
    have hle : (allowRun (TokenBucket.new N 0 t0) times N).tokens
        ≤ ((allowRun (TokenBucket.new N 0 t0) times N).max_tokens : ℚ) := by
      rw [h1, h2]
      have : (0 : ℚ) ≤ (N : ℚ) := by positivity
      linarith
    unfold allowResult
    rw [allow_zero_rate _ _ h3 hle, if_neg (by rw [h1, sub_self]; norm_num)]

/-- Witness for C8 at `N = 1`. -/
theorem token_bucket_exhaustion_claim_witness :
    allowResult (TokenBucket.new 1 0 0) (fun _ => 0) 0 = true ∧
    allowResult (TokenBucket.new 1 0 0) (fun _ => 0) 1 = false := by
  have h := token_bucket_exhaustion_claim 1 (by decide) (fun _ => 0) 0
  exact ⟨h.1 0 (by decide), h.2⟩

lemma allow_frame (rl : RateLimiter) (k1 k2 : String) (now : ℚ)
    (hpc : rl.config.per_client = true) (hne : k2 ≠ k1) :
    ((rl.allow (some k1) now).2).token_buckets k2 = rl.token_buckets k2 ∧
    ((rl.allow (some k1) now).2).leaky_buckets k2 = rl.leaky_buckets k2 ∧
    ((rl.allow (some k1) now).2).config = rl.config := by
  rcases halg : rl.config.algorithm with ⟨mt, tps⟩ | ⟨cap, lr⟩ <;>
    simp [RateLimiter.allow, halg, hpc, hne]

lemma allowCalls_frame (rl : RateLimiter) (k1 k2 : String) (times : Nat → ℚ)
    (hpc : rl.config.per_client = true) (hne : k2 ≠ k1) (n : Nat) :
    (allowCalls rl (some k1) times n).token_buckets k2 = rl.token_buckets k2 ∧
    (allowCalls rl (some k1) times n).leaky_buckets k2 = rl.leaky_buckets k2 ∧
    (allowCalls rl (some k1) times n).config = rl.config := by
  induction n with
  | zero => exact ⟨rfl, rfl, rfl⟩
  | succ m ih =>
      obtain ⟨h1, h2, h3⟩ := ih
      have hstep : allowCalls rl (some k1) times (m + 1)
          = ((allowCalls rl (some k1) times m).allow (some k1) (times m)).2 := rfl
      have hf := allow_frame (allowCalls rl (some k1) times m) k1 k2 (times m)
        (by rw [h3]; exact hpc) hne
      rw [hstep, hf.1, hf.2.1, hf.2.2]
      exact ⟨h1, h2, h3⟩

/-- Claim C9: for a per-client rate limiter and distinct client keys
`k1 ≠ k2`, a call to `allow` for `k1` leaves the bucket state of `k2`
unchanged in both bucket tables; hence any number of `allow` calls for `k1`
(in particular, exhausting `k1`'s bucket) leaves `k2`'s quota unchanged. -/
theorem per_client_frame_claim (rl : RateLimiter) (k1 k2 : String) (times : Nat → ℚ)
    (hpc : rl.config.per_client = true) (hne : k2 ≠ k1) :
    (∀ now, ((rl.allow (some k1) now).2).token_buckets k2 = rl.token_buckets k2 ∧
            ((rl.allow (some k1) now).2).leaky_buckets k2 = rl.leaky_buckets k2) ∧
    (∀ n, (allowCalls rl (some k1) times n).token_buckets k2 = rl.token_buckets k2 ∧
          (allowCalls rl (some k1) times n).leaky_buckets k2 = rl.leaky_buckets k2) := by
  constructor
  · intro now
    exact ⟨(allow_frame rl k1 k2 now hpc hne).1, (allow_frame rl k1 k2 now hpc hne).2.1⟩
  · intro n
    exact ⟨(allowCalls_frame rl k1 k2 times hpc hne n).1,
           (allowCalls_frame rl k1 k2 times hpc hne n).2.1⟩

/-- Witness for C9: keys `"a"` and `"b"` on a fresh per-client limiter. -/
theorem per_client_frame_claim_witness :
    ((RateLimiter.with_config ⟨.tokenBucket 2 0, true⟩).allow (some "a") 0).2.token_buckets "b"
      = none ∧
    (allowCalls (RateLimiter.with_config ⟨.tokenBucket 2 0, true⟩) (some "a") (fun _ => 0)
        3).leaky_buckets "b" = none := by
  have h := per_client_frame_claim (RateLimiter.with_config ⟨.tokenBucket 2 0, true⟩)
    "a" "b" (fun _ => 0) rfl (by decide)
  exact ⟨(h.1 0).1, (h.2 3).2⟩

lemma lor_shiftRight (x y n : Nat) : (x ||| y) >>> n = (x >>> n) ||| (y >>> n) := by
  apply Nat.eq_of_testBit_eq
  intro i
  simp [Nat.testBit_shiftRight, Nat.testBit_or]

lemma lor_shiftLeft (x y n : Nat) : (x ||| y) <<< n = (x <<< n) ||| (y <<< n) := by
  apply Nat.eq_of_testBit_eq
  intro i
  simp only [Nat.testBit_shiftLeft, Nat.testBit_or]
  cases Nat.decLe n i with
  | isTrue h => simp [h]
  | isFalse h => simp [h]

lemma mask_eq : (0xFFFFF : Nat) = 2 ^ 20 - 1 := by norm_num

lemma and_mask_of_lt {x : Nat} (h : x < 2 ^ 20) : x &&& 0xFFFFF = x := by
  rw [mask_eq]
  exact Nat.and_pow_two_sub_one_of_lt_two_pow h

lemma shiftLeft_and_mask_twenty (x : Nat) : (x <<< 20) &&& 0xFFFFF = 0 := by
  rw [mask_eq, Nat.and_pow_two_sub_one_eq_mod, Nat.shiftLeft_eq, Nat.mul_mod_left]

lemma shiftLeft_and_mask_forty (x : Nat) : (x <<< 40) &&& 0xFFFFF = 0 := by
  rw [mask_eq, Nat.and_pow_two_sub_one_eq_mod, Nat.shiftLeft_eq,
    show (2 : Nat) ^ 40 = 2 ^ 20 * 2 ^ 20 by norm_num, ← Nat.mul_assoc, Nat.mul_mod_left]

lemma pack_unpack (h m e : Nat) (hh : h < 2 ^ 20) (hm : m < 2 ^ 20) (he : e < 2 ^ 20) :
    hits_of (pack h m e) = h ∧ misses_of (pack h m e) = m ∧
    evictions_of (pack h m e) = e := by
  refine ⟨?_, ?_, ?_⟩
  · unfold hits_of pack
    rw [Nat.and_distrib_right, Nat.and_distrib_right, and_mask_of_lt hh,
      shiftLeft_and_mask_twenty, shiftLeft_and_mask_forty, Nat.or_zero, Nat.or_zero]
  · unfold misses_of pack
    rw [lor_shiftRight, lor_shiftRight,
      show h >>> 20 = 0 by rw [Nat.shiftRight_eq_div_pow]; exact Nat.div_eq_of_lt hh,
      Nat.shiftLeft_shiftRight,
      show e <<< 40 = (e <<< 20) <<< 20 by
        rw [show (40 : Nat) = 20 + 20 by norm_num, Nat.shiftLeft_add],
      Nat.shiftLeft_shiftRight, Nat.zero_or, Nat.and_distrib_right, and_mask_of_lt hm,
      shiftLeft_and_mask_twenty, Nat.or_zero]
  · unfold evictions_of pack
    have hm40 : m * 2 ^ 20 < 2 ^ 40 := by
      have h1 : m * 2 ^ 20 < 2 ^ 20 * 2 ^ 20 := mul_lt_mul_of_pos_right hm (by positivity)
      calc m * 2 ^ 20 < 2 ^ 20 * 2 ^ 20 := h1
        _ = 2 ^ 40 := by norm_num
    rw [lor_shiftRight, lor_shiftRight,
      show h >>> 40 = 0 by
        rw [Nat.shiftRight_eq_div_pow]
        exact Nat.div_eq_of_lt (lt_of_lt_of_le hh (Nat.pow_le_pow_right (by norm_num) (by norm_num))),
      show (m <<< 20) >>> 40 = 0 by
        rw [Nat.shiftLeft_eq, Nat.shiftRight_eq_div_pow]
        exact Nat.div_eq_of_lt hm40,
      Nat.shiftLeft_shiftRight, Nat.zero_or, Nat.zero_or, and_mask_of_lt he]

lemma pack_hits_carry (m e : Nat) : pack (2 ^ 20) m e = pack 0 (m ||| 1) e := by
  unfold pack
  rw [show (2 : Nat) ^ 20 = 1 <<< 20 from (Nat.one_shiftLeft 20).symm, Nat.zero_or,
    ← lor_shiftLeft, Nat.lor_comm 1 m]

lemma pack_misses_carry (h e : Nat) : pack h (2 ^ 20) e = pack h 0 (e ||| 1) := by
  unfold pack
  rw [show ((2 : Nat) ^ 20) <<< 20 = 1 <<< 40 by
      rw [Nat.shiftLeft_eq, Nat.shiftLeft_eq, one_mul]; norm_num,
    Nat.zero_shiftLeft, Nat.or_zero, Nat.or_assoc, ← lor_shiftLeft, Nat.lor_comm 1 e]

lemma incr_hits_carry (w : Nat) (h : hits_of w = 0xFFFFF) :
    hits_of (incr_hits w) = 0 ∧ misses_of (incr_hits w) = misses_of w ||| 1 ∧
    evictions_of (incr_hits w) = evictions_of w := by
  have hm : misses_of w < 2 ^ 20 := lt_of_le_of_lt Nat.and_le_right (by norm_num)
  have he : evictions_of w < 2 ^ 20 := lt_of_le_of_lt Nat.and_le_right (by norm_num)
  have hm1 : misses_of w ||| 1 < 2 ^ 20 := Nat.or_lt_two_pow hm (by norm_num)
  unfold incr_hits
  rw [h, show (0xFFFFF + 1 : Nat) = 2 ^ 20 by norm_num, pack_hits_carry]
  exact pack_unpack 0 (misses_of w ||| 1) (evictions_of w) (by norm_num) hm1 he

lemma incr_misses_carry (w : Nat) (h : misses_of w = 0xFFFFF) :
    misses_of (incr_misses w) = 0 ∧ evictions_of (incr_misses w) = evictions_of w ||| 1 ∧
    hits_of (incr_misses w) = hits_of w := by
  have hh : hits_of w < 2 ^ 20 := lt_of_le_of_lt Nat.and_le_right (by norm_num)
  have he : evictions_of w < 2 ^ 20 := lt_of_le_of_lt Nat.and_le_right (by norm_num)
  have he1 : evictions_of w ||| 1 < 2 ^ 20 := Nat.or_lt_two_pow he (by norm_num)
  unfold incr_misses
  rw [h, show (0xFFFFF + 1 : Nat) = 2 ^ 20 by norm_num, pack_misses_carry]
  have hu := pack_unpack (hits_of w) 0 (evictions_of w ||| 1) hh (by norm_num) he1
  exact ⟨hu.2.1, hu.2.2, hu.1⟩

lemma incr_evictions_fields (w : Nat) (hev : evictions_of w + 1 < 2 ^ 20) :
    hits_of (incr_evictions w) = hits_of w ∧ misses_of (incr_evictions w) = misses_of w ∧
    evictions_of (incr_evictions w) = evictions_of w + 1 := by
  have hh : hits_of w < 2 ^ 20 := lt_of_le_of_lt Nat.and_le_right (by norm_num)
  have hm : misses_of w < 2 ^ 20 := lt_of_le_of_lt Nat.and_le_right (by norm_num)
  unfold incr_evictions
  exact pack_unpack (hits_of w) (misses_of w) (evictions_of w + 1) hh hm hev

/-- Claim C10: the statistics counters are bit-packed into 20-bit fields of
one 64-bit word, so every counter reported by `stats()` is at most
`2^20 - 1`; incrementing a counter whose field holds `2^20 - 1` wraps its
reported value to 0 while the carry bit is OR-ed into the adjacent
counter's field (hits into the low bit of misses, misses into the low bit
of evictions), leaving the remaining field unchanged. -/
theorem packed_stats_claim (c : Cache) :
    (c.stats.hits ≤ 2 ^ 20 - 1 ∧ c.stats.misses ≤ 2 ^ 20 - 1 ∧
      c.stats.evictions ≤ 2 ^ 20 - 1) ∧
    (c.stats.hits = 2 ^ 20 - 1 →
      hits_of (incr_hits c.stats_word) = 0 ∧
      misses_of (incr_hits c.stats_word) = misses_of c.stats_word ||| 1 ∧
      evictions_of (incr_hits c.stats_word) = evictions_of c.stats_word) ∧
    (c.stats.misses = 2 ^ 20 - 1 →
      misses_of (incr_misses c.stats_word) = 0 ∧
      evictions_of (incr_misses c.stats_word) = evictions_of c.stats_word ||| 1 ∧
      hits_of (incr_misses c.stats_word) = hits_of c.stats_word) := by
  refine ⟨⟨?_, ?_, ?_⟩, ?_, ?_⟩
  · rw [← mask_eq]
    exact Nat.and_le_right
  · rw [← mask_eq]
    exact Nat.and_le_right
  · rw [← mask_eq]
    exact Nat.and_le_right
  · intro h
    exact incr_hits_carry c.stats_word (by rw [show hits_of c.stats_word = c.stats.hits from rfl, h, mask_eq])
  · intro h
    exact incr_misses_carry c.stats_word (by rw [show misses_of c.stats_word = c.stats.misses from rfl, h, mask_eq])

/-- Witness for C10 on the word with hits and misses fields both full. -/
theorem packed_stats_claim_witness :
    hits_of (incr_hits 0xFFFFFFFFFF) = 0 ∧
    misses_of (incr_hits 0xFFFFFFFFFF) = misses_of 0xFFFFFFFFFF ||| 1 ∧
    misses_of (incr_misses 0xFFFFFFFFFF) = 0 ∧
    evictions_of (incr_misses 0xFFFFFFFFFF) = evictions_of 0xFFFFFFFFFF ||| 1 := by
  have h := packed_stats_claim ⟨[], ⟨2, 300, false, 0⟩, 0xFFFFFFFFFF⟩
  have h1 := h.2.1 (by decide)
  have h2 := h.2.2 (by decide)
  exact ⟨h1.1, h1.2.1, h2.1, h2.2.1⟩

lemma oldest_entry_cons_some (p0 : Nat × CacheEntry) (rest : List (Nat × CacheEntry)) :
    ∃ p, oldest_entry (p0 :: rest) = some p := by
  cases hr : oldest_entry rest with
  | none => exact ⟨p0, by simp only [oldest_entry, hr]⟩
  | some q =>
      by_cases hc : q.2.created < p0.2.created
      · exact ⟨q, by simp only [oldest_entry, hr]; rw [if_pos hc]⟩
      · exact ⟨p0, by simp only [oldest_entry, hr]; rw [if_neg hc]⟩

lemma oldest_entry_mem (l : List (Nat × CacheEntry)) :
    ∀ p, oldest_entry l = some p → p ∈ l := by
  induction l with
  | nil => intro p h; simp [oldest_entry] at h
  | cons p0 rest ih =>
      intro p h
      cases hr : oldest_entry rest with
      | none =>
          simp only [oldest_entry, hr] at h
          rw [← Option.some.inj h]
          exact List.mem_cons_self p0 rest
      | some q =>
          simp only [oldest_entry, hr] at h
          by_cases hc : q.2.created < p0.2.created
          · rw [if_pos hc] at h
            rw [← Option.some.inj h]
            exact List.mem_cons_of_mem p0 (ih q hr)
          · rw [if_neg hc] at h
            rw [← Option.some.inj h]
            exact List.mem_cons_self p0 rest

lemma oldest_entry_min (l : List (Nat × CacheEntry)) :
    ∀ p, oldest_entry l = some p → ∀ q ∈ l, p.2.created ≤ q.2.created := by
  induction l with
  | nil => intro p h; simp [oldest_entry] at h
  | cons p0 rest ih =>
      intro p h q hq
      cases hr : oldest_entry rest with
      | none =>
          simp only [oldest_entry, hr] at h
          rw [← Option.some.inj h]
          rcases List.mem_cons.mp hq with hq0 | hq'
          · rw [hq0]
          · cases rest with
            | nil => simp at hq'
            | cons a b =>
                obtain ⟨r, hrr⟩ := oldest_entry_cons_some a b
                rw [hrr] at hr
                exact absurd hr (by simp)
      | some qm =>
          simp only [oldest_entry, hr] at h
          by_cases hc : qm.2.created < p0.2.created
          · rw [if_pos hc] at h
            rw [← Option.some.inj h]
            rcases List.mem_cons.mp hq with hq0 | hq'
            · rw [hq0]
              exact le_of_lt hc
            · exact ih qm hr q hq'
          · rw [if_neg hc] at h
            rw [← Option.some.inj h]
            rcases List.mem_cons.mp hq with hq0 | hq'
            · rw [hq0]
            · exact le_trans (Nat.le_of_not_lt hc) (ih qm hr q hq')

lemma erase_key_subset (l : List (Nat × CacheEntry)) (k : Nat) :
    ∀ p ∈ erase_key l k, p ∈ l := fun _ hp => List.mem_of_mem_filter hp

lemma erase_key_length (k : Nat) (l : List (Nat × CacheEntry))
    (hnd : (l.map Prod.fst).Nodup) (hmem : ∃ e, (k, e) ∈ l) :
    (erase_key l k).length + 1 = l.length := by
  induction l with
  | nil =>
      obtain ⟨e, he⟩ := hmem
      simp at he
  | cons p rest ih =>
      obtain ⟨e, he⟩ := hmem
      simp only [List.map_cons, List.nodup_cons] at hnd
      by_cases hp : p.1 = k
      · have hrest : ∀ a ∈ rest, ¬(a.1 = k) := by
          intro a ha hak
          exact hnd.1 (List.mem_map.mpr ⟨a, ha, by rw [hak, hp]⟩)
        have herase : erase_key (p :: rest) k = erase_key rest k := by
          simp only [erase_key, List.filter_cons]
          rw [if_neg (by simp [hp])]
        have hself : erase_key rest k = rest :=
          List.filter_eq_self.mpr (fun a ha => by simp [hrest a ha])
        rw [herase, hself]
        simp
      · have hin : (k, e) ∈ rest := by
          rcases List.mem_cons.mp he with h1 | h1
          · exact absurd (by rw [← h1]) hp
          · exact h1
        have hrec := ih hnd.2 ⟨e, hin⟩
        simp only [erase_key, List.filter_cons]
        rw [if_pos (by simp [hp])]
        simp only [List.length_cons]
        unfold erase_key at hrec
        omega

lemma list_insert_of_not_mem (l : List (Nat × CacheEntry)) (k : Nat) (e : CacheEntry)
    (h : ∀ p ∈ l, p.1 ≠ k) : list_insert l k e = l ++ [(k, e)] := by
  unfold list_insert
  rw [if_neg (by
    intro hc
    obtain ⟨p, hp, hbeq⟩ := List.any_eq_true.mp hc
    exact h p hp (by simpa using hbeq))]

/-- Counterexample to claim C5: at this concrete input — a full two-entry
table into which the already-present key 1 (which is not the oldest entry)
is inserted — the code evicts the oldest entry 0 and then merely
overwrites the existing binding for 1, leaving 1 entry, not
`max_entries = 2`. -/
theorem eviction_counterexample :
    ({ entries := [(0, ⟨10, 100, 0⟩), (1, ⟨11, 100, 1⟩)], config := ⟨2, 300, false, 0⟩,
       stats_word := 0 } : Cache).entries.length = 2 ∧
    ({ entries := [(0, ⟨10, 100, 0⟩), (1, ⟨11, 100, 1⟩)], config := ⟨2, 300, false, 0⟩,
       stats_word := 0 } : Cache).config.max_entries = 2 ∧
    (({ entries := [(0, ⟨10, 100, 0⟩), (1, ⟨11, 100, 1⟩)], config := ⟨2, 300, false, 0⟩,
        stats_word := 0 } : Cache).insert 1 99 50 5).entries.length = 1 := by
  decide

/-- Claim C5 as amended: when the table holds exactly `max_entries ≥ 1`
entries with pairwise-distinct keys, the inserted key is *not already
present*, and the evictions field is not at its 20-bit ceiling, `insert`
removes exactly one entry — one whose `created` is minimal — increments
the evictions counter by 1 (leaving hits and misses unchanged), and leaves
the table with exactly `max_entries` entries. -/
theorem eviction_amended (c : Cache) (k v ttl now : Nat)
    (hnd : (c.entries.map Prod.fst).Nodup)
    (hfull : c.entries.length = c.config.max_entries)
    (hpos : 1 ≤ c.config.max_entries)
    (hnew : ∀ p ∈ c.entries, p.1 ≠ k)
    (hev : evictions_of c.stats_word + 1 < 2 ^ 20) :
    ∃ p, oldest_entry c.entries = some p ∧ p ∈ c.entries ∧
      (∀ q ∈ c.entries, p.2.created ≤ q.2.created) ∧
      (c.insert k v ttl now).entries
        = erase_key c.entries p.1 ++ [(k, ⟨v, now + ttl, now⟩)] ∧
      (c.insert k v ttl now).entries.length = c.config.max_entries ∧
      evictions_of (c.insert k v ttl now).stats_word = evictions_of c.stats_word + 1 ∧
      hits_of (c.insert k v ttl now).stats_word = hits_of c.stats_word ∧
      misses_of (c.insert k v ttl now).stats_word = misses_of c.stats_word := by
  obtain ⟨p0, rest, hl⟩ : ∃ p0 rest, c.entries = p0 :: rest := by
    cases hE : c.entries with
    | nil =>
        rw [hE] at hfull
        simp at hfull
        omega
    | cons a b => exact ⟨a, b, rfl⟩
  obtain ⟨p, hp⟩ : ∃ p, oldest_entry c.entries = some p := by
    rw [hl]
    exact oldest_entry_cons_some p0 rest
  have hpm : p ∈ c.entries := oldest_entry_mem c.entries p hp
  have hpmin : ∀ q ∈ c.entries, p.2.created ≤ q.2.created := oldest_entry_min c.entries p hp
  have hcond : c.config.max_entries ≤ c.entries.length := le_of_eq hfull.symm
  have hc' : c.insert k v ttl now
      = { c with entries := list_insert (erase_key c.entries p.1) k ⟨v, now + ttl, now⟩,
                 stats_word := incr_evictions c.stats_word } := by
    simp only [Cache.insert]
    rw [if_pos hcond, hp]
  have hsub : ∀ q ∈ erase_key c.entries p.1, q.1 ≠ k :=
    fun q hq => hnew q (erase_key_subset c.entries p.1 q hq)
  have hli : list_insert (erase_key c.entries p.1) k ⟨v, now + ttl, now⟩
      = erase_key c.entries p.1 ++ [(k, ⟨v, now + ttl, now⟩)] :=
    list_insert_of_not_mem _ _ _ hsub
  have hlen : (erase_key c.entries p.1).length + 1 = c.entries.length :=
    erase_key_length p.1 c.entries hnd ⟨p.2, by rwa [Prod.mk.eta]⟩
  have hfields := incr_evictions_fields c.stats_word hev
  refine ⟨p, hp, hpm, hpmin, ?_, ?_, ?_, ?_, ?_⟩
  · rw [hc']
    exact hli
  · rw [hc']
    show (list_insert (erase_key c.entries p.1) k ⟨v, now + ttl, now⟩).length
      = c.config.max_entries
    rw [hli]
    simp only [List.length_append, List.length_singleton]
    omega
  · rw [hc']
    exact hfields.2.2
  · rw [hc']
    exact hfields.1
  · rw [hc']
    exact hfields.2.1

/-- Witness for the amended C5: a full two-entry table and a fresh key. -/
theorem eviction_amended_witness :
    (({ entries := [(0, ⟨10, 100, 0⟩), (1, ⟨11, 100, 1⟩)], config := ⟨2, 300, false, 0⟩,
        stats_word := 0 } : Cache).insert 2 99 50 5).entries.length = 2 ∧
    evictions_of (({ entries := [(0, ⟨10, 100, 0⟩), (1, ⟨11, 100, 1⟩)],
                     config := ⟨2, 300, false, 0⟩,
                     stats_word := 0 } : Cache).insert 2 99 50 5).stats_word = 1 := by
  obtain ⟨p, _, _, _, _, h5, h6, _⟩ := eviction_amended
    ({ entries := [(0, ⟨10, 100, 0⟩), (1, ⟨11, 100, 1⟩)], config := ⟨2, 300, false, 0⟩,
       stats_word := 0 } : Cache) 2 99 50 5 (by decide) (by decide) (by decide)
    (by decide) (by decide)
  exact ⟨h5, h6⟩

/-- Claim C1 fails on the code: under `raceSchedule`, a legal interleaving
of the atomic sections of `get_or_compute` for two concurrent callers of
one uncached key, the `compute` callback is invoked twice and the two
callers return different values (task 0 returns 0, task 1 returns 1),
while the claim requires exactly one invocation and identical results for
all callers. -/
theorem get_or_compute_race :
    (runSched (initLoad 2) raceSchedule).compute_count = 2 ∧
    ((runSched (initLoad 2) raceSchedule).tasks.map Task.result) = [some 0, some 1] ∧
    (∀ t ∈ (runSched (initLoad 2) raceSchedule).tasks, t.pc = .finished) := by
  decide

end NoDowntime

